import Mathlib

/-!
Verification of the distributed HER training coordinator (src/her.py).

The embedding models, over exact rationals:
  * `mpi_average` (lines 15-20): the per-worker falsy-substitution followed by
    the `mpi_moments` collective mean (global sum over global count);
  * the per-epoch checkpoint/logging step of `train` (lines 85-108) and the
    epoch loop itself (lines 39, 47-108), abstracted over the aggregated
    per-epoch success rates;
  * the seed-decorrelation broadcast-and-assert (lines 103-108);
  * the per-rank seed derivation in `learn` (line 135).
-/

namespace HerSpec

/-- Embedding of the local preprocessing in `mpi_average` (src/her.py lines 16-19):
Python's `if not any(value): value = [0.]` replaces the local list by `[0.]`
exactly when no element is truthy, i.e. when the list is empty or all elements
are zero. -/
def localSubstitute (value : List ℚ) : List ℚ :=
  if value.any (fun x => decide (x ≠ 0)) then value else [0]

/-- Collective view of `mpi_average` (src/her.py lines 15-20): every worker's
local list goes through `localSubstitute`, then `mpi_moments` returns the
global mean, i.e. the sum of all local sums divided by the sum of all local
counts. The argument is the list of the W workers' local lists. -/
def mpi_average (ws : List (List ℚ)) : ℚ :=
  let vs := ws.map localSubstitute
  (vs.map List.sum).sum / ((vs.map List.length).sum : ℚ)

/-- The arithmetic mean of a list of rationals, following the spec's words
(used to compare `mpi_average` against the spec's claimed result). -/
def listMean (l : List ℚ) : ℚ := l.sum / (l.length : ℚ)

/-- Checkpoint slots written by `train` (src/her.py lines 94-95, 99). -/
inductive WriteSlot where
  | best : WriteSlot
  | latest : WriteSlot
  | periodic : ℕ → WriteSlot
deriving DecidableEq

/-- Log output events emitted by `train`. `testing` is the `logger.info`
call at line 63, `dumpTabular` the rank-0-only flush at line 86, `newBest`
the message at line 93, `savingPeriodic` at line 98, and `bestSoFar` the
unconditional `logger.info` at line 102; `trainingBanner` is line 35. -/
inductive LogEvent where
  | trainingBanner : LogEvent
  | testing : LogEvent
  | dumpTabular : LogEvent
  | newBest : ℚ → LogEvent
  | savingPeriodic : ℕ → LogEvent
  | bestSoFar : ℚ → LogEvent
deriving DecidableEq

/-- Result of one epoch (or of a whole run): the best-success tracker, the
checkpoint writes performed, and the log output emitted, in order. -/
structure EpochOut where
  best : ℚ
  writes : List WriteSlot
  logs : List LogEvent
deriving DecidableEq

/-- One iteration of the epoch loop of `train` from the point where the
aggregated success rate is in hand (src/her.py lines 63, 85-102), on a worker
of the given rank: rank 0 flushes the log table; if `rank == 0 and
success_rate >= best_success_rate and save_path` the tracker is overwritten
and the best and latest slots are written; if `rank == 0 and
policy_save_interval > 0 and epoch % policy_save_interval == 0 and save_path`
the periodic slot for this epoch is written; finally line 102 logs the
tracker on every rank. -/
def epochStep (rank : ℕ) (savePath : Bool) (K : ℕ) (epoch : ℕ)
    (successRate best : ℚ) : EpochOut :=
  let dumpLogs : List LogEvent := if rank = 0 then [LogEvent.dumpTabular] else []
  let doBest : Bool := decide (rank = 0) && decide (best ≤ successRate) && savePath
  let best2 : ℚ := if doBest then successRate else best
  let bestWrites : List WriteSlot := if doBest then [WriteSlot.best, WriteSlot.latest] else []
  let bestLogs : List LogEvent := if doBest then [LogEvent.newBest successRate] else []
  let doPeriodic : Bool :=
    decide (rank = 0) && decide (0 < K) && decide (epoch % K = 0) && savePath
  let periodicWrites : List WriteSlot := if doPeriodic then [WriteSlot.periodic epoch] else []
  let periodicLogs : List LogEvent := if doPeriodic then [LogEvent.savingPeriodic epoch] else []
  { best := best2
    writes := bestWrites ++ periodicWrites
    logs := LogEvent.testing :: dumpLogs ++ bestLogs ++ periodicLogs
              ++ [LogEvent.bestSoFar best2] }

/-- The epoch loop of `train` from a given epoch index and tracker value,
driven by the list of aggregated per-epoch success rates. -/
def runFrom (rank : ℕ) (savePath : Bool) (K : ℕ) :
    ℕ → ℚ → List ℚ → EpochOut
  | _, best, [] => { best := best, writes := [], logs := [] }
  | e, best, r :: rs =>
    let out := epochStep rank savePath K e r best
    let rest := runFrom rank savePath K (e + 1) out.best rs
    { best := rest.best, writes := out.writes ++ rest.writes, logs := out.logs ++ rest.logs }

/-- The whole of `train` as far as checkpointing and logging are concerned
(src/her.py lines 35, 39, 47-102): the tracker starts at the sentinel `-1`
(line 39), epochs run from index 0, and line 35 logs a banner first. -/
def train (rank : ℕ) (savePath : Bool) (K : ℕ) (rates : List ℚ) : EpochOut :=
  let out := runFrom rank savePath K 0 (-1) rates
  { out with logs := LogEvent.trainingBanner :: out.logs }

/-- The per-epoch decorrelation assertion (src/her.py lines 103-108): each
rank draws `local_uniform`; `Bcast` with root 0 overwrites `root_uniform`
with rank 0's draw on every rank; a nonzero rank asserts its own draw
differs. `draws r` is rank r's locally drawn value; the result is whether
the assertion passes on the given rank. -/
def decorrelationAssert (draws : ℕ → ℚ) (rank : ℕ) : Bool :=
  if rank ≠ 0 then decide (draws rank ≠ draws 0) else true

/-- The run aborts when some rank among the W workers fails the assertion. -/
def decorrelationAborts (W : ℕ) (draws : ℕ → ℚ) : Prop :=
  ∃ r, r < W ∧ decorrelationAssert draws r = false

/-- Per-rank seed derivation in `learn` (src/her.py line 135):
`rank_seed = seed + 1000000 * rank if seed is not None else None`. -/
def rank_seed (seed : Option ℤ) (rank : ℕ) : Option ℤ :=
  match seed with
  | some s => some (s + 1000000 * (rank : ℤ))
  | none => none

/-! ### Helper lemmas -/

lemma localSubstitute_of_exists_ne (v : List ℚ) (h : ∃ x ∈ v, x ≠ 0) :
    localSubstitute v = v := by
  unfold localSubstitute
  rw [if_pos]
  obtain ⟨x, hx, hne⟩ := h
  exact List.any_eq_true.mpr ⟨x, hx, by simpa using hne⟩

lemma localSubstitute_of_all_zero (v : List ℚ) (h : ∀ x ∈ v, x = 0) :
    localSubstitute v = [0] := by
  unfold localSubstitute
  rw [if_neg]
  simp only [List.any_eq_true, decide_eq_true_eq, not_exists]
  intro x
  simp only [not_and]
  intro hx
  simpa using h x hx

/-! ### Claims about `mpi_average` -/

/-- C1 (counterexample): with two workers holding the equal-length lists
`[0,0]` and `[1,1]`, `mpi_average` returns `2/3` (the all-zero list was
replaced by the single value `[0.]`), not the mean `1/2` of the
concatenation, so the claim as stated is false. -/
theorem C1_counterexample :
    ¬ (mpi_average [[0, 0], [1, 1]] = listMean (List.flatten [[0, 0], [1, 1]])) := by
  unfold mpi_average listMean localSubstitute
  norm_num

/-- C1 (amended): for every worker count W ≥ 1 and every assignment of
equal-length local lists each of which contains at least one nonzero value,
`mpi_average` returns exactly the arithmetic mean of the concatenation of
all workers' lists. -/
theorem C1_mean_of_concatenation (ws : List (List ℚ)) (n : ℕ)
    (hW : ws ≠ []) (hlen : ∀ v ∈ ws, v.length = n)
    (hnz : ∀ v ∈ ws, ∃ x ∈ v, x ≠ 0) :
    mpi_average ws = listMean ws.flatten := by
  have hsub : ws.map localSubstitute = ws := by
    have := List.map_congr_left (fun v hv => localSubstitute_of_exists_ne v (hnz v hv))
    simpa using this
  unfold mpi_average listMean
  rw [hsub, List.sum_flatten, List.length_flatten]

/-- C1 (witness): two workers with lists `[1]` and `[2]`. -/
theorem C1_witness :
    mpi_average [[1], [2]] = listMean (List.flatten [[(1 : ℚ)], [2]]) :=
  C1_mean_of_concatenation [[1], [2]] 1 (by decide) (by decide)
    (by decide)

/-- C6: substituting `[0]` for a worker's empty local list leaves the
aggregation result unchanged, for any surrounding workers. -/
theorem C6_empty_list_as_zero (pre suf : List (List ℚ)) :
    mpi_average (pre ++ [] :: suf) = mpi_average (pre ++ [(0 : ℚ)] :: suf) := by
  have h : localSubstitute [] = localSubstitute [(0 : ℚ)] := by decide
  unfold mpi_average
  simp only [List.map_append, List.map_cons, h]

/-- C7: a list all of whose elements are falsy (zero) — not only the empty
list — is replaced by `[0.]`, so an all-zero local list contributes a single
value of count 1 to the aggregation, behaving exactly like the list `[0]`. -/
theorem C7_all_falsy_replaced (v : List ℚ) (rest : List (List ℚ))
    (h : ∀ x ∈ v, x = 0) :
    localSubstitute v = [0] ∧ mpi_average (v :: rest) = mpi_average ([(0 : ℚ)] :: rest) := by
  have hs := localSubstitute_of_all_zero v h
  refine ⟨hs, ?_⟩
  have h0 : localSubstitute [(0 : ℚ)] = [0] := by decide
  unfold mpi_average
  simp only [List.map_cons, hs, h0]

/-- C7 (witness): the all-zero list `[0, 0]` of length 2, next to a worker
holding `[3]`. -/
theorem C7_witness :
    localSubstitute [0, 0] = [0] ∧
      mpi_average [[0, 0], [3]] = mpi_average [[(0 : ℚ)], [3]] :=
  C7_all_falsy_replaced [0, 0] [[3]] (by decide)

/-! ### Helper lemmas about the epoch step and the loop -/

lemma epochStep_best_rank0 (K e : ℕ) (s b : ℚ) :
    (epochStep 0 true K e s b).best = max b s := by
  simp [epochStep, max_def]

lemma epochStep_nosave (rank K e : ℕ) (s b : ℚ) :
    (epochStep rank false K e s b).best = b ∧ (epochStep rank false K e s b).writes = [] := by
  simp [epochStep]

lemma runFrom_nosave (rank K : ℕ) :
    ∀ (rates : List ℚ) (e : ℕ) (b : ℚ),
      (runFrom rank false K e b rates).best = b ∧
        (runFrom rank false K e b rates).writes = [] := by
  intro rates
  induction rates with
  | nil => intro e b; exact ⟨rfl, rfl⟩
  | cons r rs ih =>
    intro e b
    obtain ⟨h1, h2⟩ := epochStep_nosave rank K e r b
    simp only [runFrom, h1, h2, List.nil_append]
    exact ih (e + 1) b

lemma epochStep_nonzero_rank (rank : ℕ) (h : rank ≠ 0) (save : Bool) (K e : ℕ) (s b : ℚ) :
    epochStep rank save K e s b =
      { best := b, writes := [], logs := [LogEvent.testing, LogEvent.bestSoFar b] } := by
  simp [epochStep, h]

lemma runFrom_nonzero_rank (rank : ℕ) (h : rank ≠ 0) (save : Bool) (K : ℕ) :
    ∀ (rates : List ℚ) (e : ℕ) (b : ℚ),
      (runFrom rank save K e b rates).writes = [] ∧
        LogEvent.dumpTabular ∉ (runFrom rank save K e b rates).logs := by
  intro rates
  induction rates with
  | nil => intro e b; exact ⟨rfl, by simp [runFrom]⟩
  | cons r rs ih =>
    intro e b
    simp only [runFrom, epochStep_nonzero_rank rank h]
    obtain ⟨h1, h2⟩ := ih (e + 1) b
    refine ⟨by simp [h1], ?_⟩
    simp [h2]

lemma foldl_max_mem_or (l : List ℚ) :
    ∀ a : ℚ, l.foldl max a = a ∨ l.foldl max a ∈ l := by
  induction l with
  | nil => intro a; left; rfl
  | cons x xs ih =>
    intro a
    rw [List.foldl_cons]
    rcases ih (max a x) with h | h
    · rcases max_choice a x with hm | hm
      · left; rw [h, hm]
      · right; rw [h, hm]; exact List.mem_cons_self x xs
    · right; exact List.mem_cons_of_mem x h

lemma le_foldl_max (l : List ℚ) : ∀ a : ℚ, a ≤ l.foldl max a := by
  induction l with
  | nil => intro a; exact le_refl a
  | cons x xs ih =>
    intro a
    exact le_trans (le_max_left a x) (ih (max a x))

lemma mem_le_foldl_max (l : List ℚ) :
    ∀ (a r : ℚ), r ∈ l → r ≤ l.foldl max a := by
  induction l with
  | nil => intro a r h; cases h
  | cons x xs ih =>
    intro a r h
    rw [List.foldl_cons]
    rcases List.mem_cons.mp h with h' | h'
    · subst h'
      exact le_trans (le_max_right a r) (le_foldl_max xs (max a r))
    · exact ih (max a x) r h'

lemma runFrom_best_rank0 (K : ℕ) :
    ∀ (rates : List ℚ) (e : ℕ) (b : ℚ),
      (runFrom 0 true K e b rates).best = rates.foldl max b := by
  intro rates
  induction rates with
  | nil => intro e b; rfl
  | cons r rs ih =>
    intro e b
    simp only [runFrom, List.foldl_cons, epochStep_best_rank0]
    exact ih (e + 1) (max b r)

lemma epochStep_count_best_rank0 (K e : ℕ) (s b : ℚ) (h : b ≤ s) :
    (epochStep 0 true K e s b).writes.count WriteSlot.best = 1 := by
  by_cases hK : 0 < K
  · by_cases hE : e % K = 0
    · simp [epochStep, h, hK, hE, List.count_cons]
    · simp [epochStep, h, hK, hE, List.count_cons]
  · simp [epochStep, h, hK, List.count_cons]

lemma runFrom_count_best_rank0 (K : ℕ) :
    ∀ (rates : List ℚ) (e : ℕ) (b : ℚ),
      rates.Sorted (· ≤ ·) → (∀ r ∈ rates, b ≤ r) →
      (runFrom 0 true K e b rates).writes.count WriteSlot.best = rates.length := by
  intro rates
  induction rates with
  | nil => intro e b _ _; rfl
  | cons r rs ih =>
    intro e b hsort hle
    rw [List.sorted_cons] at hsort
    have h1 : b ≤ r := hle r (List.mem_cons_self r rs)
    have hmax : max b r = r := max_eq_right h1
    simp only [runFrom, List.count_append, epochStep_best_rank0, hmax,
      epochStep_count_best_rank0 K e r b h1,
      ih (e + 1) r hsort.2 (fun x hx => (hsort.1 x hx : r ≤ x)), List.length_cons]
    omega

/-! ### Claims about the training loop -/

/-- C2 (counterexample): on rank 0 with a save path, checkpoint interval
K = 0 and success rates 0.2 then 0.5, the code performs TWO best-slot
writes (epoch 0, since 0.2 ≥ the sentinel -1, and epoch 1), not exactly
one as the claim states. -/
theorem C2_counterexample :
    ¬ ((train 0 true 0 [(1 : ℚ)/5, 1/2]).writes.count WriteSlot.best = 1) := by
  have h : (train 0 true 0 [(1 : ℚ)/5, 1/2]).writes =
      [WriteSlot.best, WriteSlot.latest, WriteSlot.best, WriteSlot.latest] := by
    norm_num [train, runFrom, epochStep]
  rw [h]
  decide

/-- C2 (amended): in that scenario the run ends with the best tracker at
0.5, best-slot writes happen at BOTH epochs (0.2 ≥ -1 already updates the
sentinel), each accompanied by one latest-slot write, and there are zero
periodic writes. -/
theorem C2_scenario_writes :
    (train 0 true 0 [(1 : ℚ)/5, 1/2]).best = 1/2 ∧
      (train 0 true 0 [(1 : ℚ)/5, 1/2]).writes =
        [WriteSlot.best, WriteSlot.latest, WriteSlot.best, WriteSlot.latest] := by
  constructor
  · norm_num [train, runFrom, epochStep]
  · norm_num [train, runFrom, epochStep]

/-- C3: on rank 0 with a save path, for every non-decreasing non-empty
sequence of (nonnegative) success rates, the final best tracker is the
maximum of the rates — it is attained in the list and bounds every rate —
and a best-slot write is requested at every single epoch (the running
maximum ties or increases each epoch), i.e. the number of best writes
equals the number of epochs. -/
theorem C3_monotone_best_tracker (K : ℕ) (rates : List ℚ) (hne : rates ≠ [])
    (hmono : rates.Sorted (· ≤ ·)) (hnn : ∀ r ∈ rates, (0 : ℚ) ≤ r) :
    ((train 0 true K rates).best ∈ rates ∧
        ∀ r ∈ rates, r ≤ (train 0 true K rates).best) ∧
      (train 0 true K rates).writes.count WriteSlot.best = rates.length := by
  have hb : (train 0 true K rates).best = rates.foldl max (-1) := by
    simpa [train] using runFrom_best_rank0 K rates 0 (-1)
  refine ⟨⟨?_, ?_⟩, ?_⟩
  · rw [hb]
    rcases foldl_max_mem_or rates (-1) with h | h
    · exfalso
      obtain ⟨r, hr⟩ := List.exists_mem_of_ne_nil rates hne
      have h1 : r ≤ rates.foldl max (-1) := mem_le_foldl_max rates (-1) r hr
      have h2 : (0 : ℚ) ≤ r := hnn r hr
      rw [h] at h1
      linarith
    · exact h
  · intro r hr
    rw [hb]
    exact mem_le_foldl_max rates (-1) r hr
  · have : (train 0 true K rates).writes = (runFrom 0 true K 0 (-1) rates).writes := rfl
    rw [this]
    exact runFrom_count_best_rank0 K rates 0 (-1) hmono
      (fun r hr => le_trans (by norm_num) (hnn r hr))

/-- C3 (witness): rates `[0, 1/2]` with K = 0. -/
theorem C3_witness :
    ((train 0 true 0 [(0 : ℚ), 1/2]).best ∈ [(0 : ℚ), 1/2] ∧
        ∀ r ∈ [(0 : ℚ), 1/2], r ≤ (train 0 true 0 [(0 : ℚ), 1/2]).best) ∧
      (train 0 true 0 [(0 : ℚ), 1/2]).writes.count WriteSlot.best =
        ([(0 : ℚ), 1/2] : List ℚ).length :=
  C3_monotone_best_tracker 0 [(0 : ℚ), 1/2] (by decide)
    (by simp [List.sorted_cons]) (by intro r hr; fin_cases hr <;> norm_num)

/-- C4 (counterexample): a rank other than 0 does emit log output — at the
very least the banner at line 35 and the unconditional `logger.info` at
line 102 each epoch — so "never emits log output" is false. -/
theorem C4_counterexample :
    (train 1 true 5 [(1 : ℚ)/2]).logs ≠ [] := by
  simp [train]

/-- C4 (amended): every rank other than 0 never writes any checkpoint and
never flushes the log table (`dump_tabular`), though it still emits
informational log lines; checkpoint writes are exclusive to rank 0. -/
theorem C4_nonzero_rank_no_io (rank : ℕ) (h : rank ≠ 0) (save : Bool) (K : ℕ)
    (rates : List ℚ) :
    (train rank save K rates).writes = [] ∧
      LogEvent.dumpTabular ∉ (train rank save K rates).logs := by
  obtain ⟨h1, h2⟩ := runFrom_nonzero_rank rank h save K rates 0 (-1)
  exact ⟨h1, by simp [train, h2]⟩

/-- C4 (witness): rank 1, with a save path, K = 5, one epoch at rate 1/2. -/
theorem C4_witness :
    (train 1 true 5 [(1 : ℚ)/2]).writes = [] ∧
      LogEvent.dumpTabular ∉ (train 1 true 5 [(1 : ℚ)/2]).logs :=
  C4_nonzero_rank_no_io 1 (by decide) true 5 [(1 : ℚ)/2]

/-- C5: on rank 0 with a save path, the periodic slot for epoch e is
written iff the interval K is positive and e is a multiple of K,
independently of the success rate and tracker (they do not occur on the
right-hand side); in particular K = 0 never writes periodically and K = 3
writes exactly at epochs 0, 3, 6, ... -/
theorem C5_periodic_iff (K e : ℕ) (s b : ℚ) :
    WriteSlot.periodic e ∈ (epochStep 0 true K e s b).writes ↔
      0 < K ∧ e % K = 0 := by
  by_cases h1 : b ≤ s <;> by_cases h2 : 0 < K <;> by_cases h3 : e % K = 0 <;>
    simp [epochStep, h1, h2, h3]

/-- C10: with no save path configured, the best tracker is never mutated —
it stays at the sentinel -1 on every rank, whatever the success rates —
and no checkpoint write of any kind is performed. -/
theorem C10_no_save_path_frame (rank K : ℕ) (rates : List ℚ) :
    (train rank false K rates).best = -1 ∧ (train rank false K rates).writes = [] := by
  obtain ⟨h1, h2⟩ := runFrom_nosave rank K rates 0 (-1)
  exact ⟨h1, h2⟩

/-! ### Claims about seeding and the decorrelation check -/

/-- C8: the derived per-rank seed is exactly `base + 1000000 * rank`; seeds
for distinct ranks from the same base are distinct (so in particular
pairwise distinct for ranks 0..W-1 for any W); with no base seed, no
deterministic seed is derived. -/
theorem C8_rank_seed (s : ℤ) (r r1 r2 : ℕ) (hne : r1 ≠ r2) :
    rank_seed (some s) r = some (s + 1000000 * (r : ℤ)) ∧
      rank_seed (some s) r1 ≠ rank_seed (some s) r2 ∧
      rank_seed none r = none := by
  refine ⟨rfl, ?_, rfl⟩
  intro h
  apply hne
  have h1 : s + 1000000 * (r1 : ℤ) = s + 1000000 * (r2 : ℤ) := by
    simpa [rank_seed] using h
  have h2 : (1000000 : ℤ) * (r1 : ℤ) = 1000000 * (r2 : ℤ) := by linarith
  have h3 : (r1 : ℤ) = (r2 : ℤ) :=
    mul_left_cancel₀ (by norm_num : (1000000 : ℤ) ≠ 0) h2
  exact_mod_cast h3

/-- C8 (witness): base seed 7, ranks 0 and 1. -/
theorem C8_witness :
    rank_seed (some 7) 0 = some (7 + 1000000 * ((0 : ℕ) : ℤ)) ∧
      rank_seed (some 7) 0 ≠ rank_seed (some 7) 1 ∧
      rank_seed none 0 = none :=
  C8_rank_seed 7 0 0 1 (by decide)

/-- C9: rank 0 never fails the decorrelation assertion, and the run aborts
iff some nonzero rank among the W workers drew exactly rank 0's
(broadcast) value. -/
theorem C9_decorrelation_abort_iff (W : ℕ) (draws : ℕ → ℚ) :
    decorrelationAssert draws 0 = true ∧
      (decorrelationAborts W draws ↔ ∃ r, r < W ∧ r ≠ 0 ∧ draws r = draws 0) := by
  constructor
  · simp [decorrelationAssert]
  · unfold decorrelationAborts
    constructor
    · rintro ⟨r, hrW, hr⟩
      refine ⟨r, hrW, ?_, ?_⟩
      · intro h0
        rw [h0] at hr
        simp [decorrelationAssert] at hr
      · by_cases h0 : r = 0
        · rw [h0] at hr; simp [decorrelationAssert] at hr
        · simp [decorrelationAssert, h0] at hr
          exact hr
    · rintro ⟨r, hrW, hr0, heq⟩
      exact ⟨r, hrW, by simp [decorrelationAssert, hr0, heq]⟩

end HerSpec
